import Mathlib

/- Verification of the context-retrieval engine of the airtable-ai-agent
repository: the relevance ranker, budget optimizer, truncation logic and
fragment store of `src/context_manager.py` (semantic manager, namespace-free
defs below with no `B` suffix) and `src/context_manager_basic.py` (keyword
manager, defs with a `B` suffix).

Modelling conventions:
* Python strings are `List Char`; Python floats are `ℚ` (the literals
  0.7, 0.8, 0.2, 0.1 of the source are the exact rationals 7/10, 8/10,
  2/10, 1/10); `datetime` values are `ℤ` seconds, so `timedelta(hours=1)`
  is 3600 and `timedelta(days=1)` is 86400, and `datetime.now()` is an
  explicit `now` parameter.
* `int(self.max_tokens * 0.7)` is modelled as `maxTokens * 7 / 10`
  (natural floor division).
* The external `tiktoken` tokenizer is modelled by an abstract
  `Tokenizer` structure (an encode/decode pair); concrete evaluations
  use `charTok`, the character-level instance.
* The external embedding model is an input: the query embedding `qe` and
  the per-chunk `embedding` vectors are data; `np.dot` is the rational
  dot product `dotQ`.
* In-place mutation of `DocumentChunk` objects is modelled by returning
  updated copies of the corpus list: the scoring pass returns the pair
  (updated corpus, candidate list).
-/

/-- Python `str.lower()` on a string modelled as a character list. -/
def listToLower (s : List Char) : List Char := s.map Char.toLower

/-- The character set of the Python call `word.strip('.,!?()[]{}";:')` in
`_extract_keywords`. -/
def stripSet : List Char :=
  ['.', ',', '!', '?', '(', ')', '[', ']', '\x7b', '\x7d', '"', ';', ':']

/-- Python `s.strip(cs)`: remove leading and trailing characters drawn from
`cs`. -/
def pyStrip (cs : List Char) (s : List Char) : List Char :=
  ((s.dropWhile (fun c => cs.contains c)).reverse.dropWhile
    (fun c => cs.contains c)).reverse

/-- Python `text.split()` (split on whitespace).  `List.splitOnP` keeps empty
pieces between consecutive separators; the keyword filter below discards them,
matching Python, which never produces them. -/
def splitWs (s : List Char) : List (List Char) :=
  s.splitOnP (fun c => c.isWhitespace)

/-- Whether `sub` occurs in `s` starting at index `i`. -/
def occursAt (sub s : List Char) (i : ℕ) : Bool := sub.isPrefixOf (s.drop i)

/-- Python `s.rfind(sub)`: the largest index at which `sub` occurs in `s`,
`none` when `sub` does not occur (`-1` in Python). -/
def rfindSub (s sub : List Char) : Option ℕ :=
  ((List.range (s.length + 1)).filter (fun i => occursAt sub s i)).getLast?

/-- Python substring containment `sub in s`. -/
def containsSub (sub s : List Char) : Bool :=
  (List.range (s.length + 1)).any (fun i => occursAt sub s i)

/-- Abstract model of the external `tiktoken` encoder: `encode`/`decode` over
an arbitrary token type. -/
structure Tokenizer (τ : Type) where
  encode : List Char → List τ
  decode : List τ → List Char

/-- The character-level tokenizer instance used for concrete evaluation. -/
def charTok : Tokenizer Char where
  encode := fun s => s
  decode := fun t => t

/-- The literal `"\n\n[Content truncated...]"` appended by
`_truncate_content`. -/
def truncMarker : List Char := "\n\n[Content truncated...]".data

/-- The list `natural_breaks = ['\n\n', '\n### ', '\n## ', '. ', '.\n']` of
`_truncate_content`, in source order. -/
def naturalBreaks : List (List Char) :=
  ["\n\n".data, "\n### ".data, "\n## ".data, ". ".data, ".\n".data]

/-- One iteration of the natural-break loop of `_truncate_content`: the cut
position `last_break + len(break_point)` provided `break_point` occurs in `s`
and its last occurrence satisfies `last_break > len(s) * 0.8`
(rationally, `5 * last_break > 4 * len(s)`). -/
def breakCut (s bp : List Char) : Option ℕ :=
  match rfindSub s bp with
  | some lb => if 4 * s.length < 5 * lb then some (lb + bp.length) else none
  | none => none

/-- The natural-break loop of `_truncate_content`: try each break string in
source order, cut at the first one that qualifies, otherwise leave `s`
unchanged. -/
def applyBreaks : List (List Char) → List Char → List Char
  | [], s => s
  | bp :: rest, s =>
    match breakCut s bp with
    | some cut => s.take cut
    | none => applyBreaks rest s

/-- `ContextManager._truncate_content`: return content unchanged when it fits,
otherwise decode the first `maxTokens` tokens, move the cut to a natural break
when one qualifies, and append the truncation marker. -/
def truncateContent {τ : Type} (tok : Tokenizer τ) (content : List Char)
    (maxTokens : ℕ) : List Char :=
  let tokens := tok.encode content
  if tokens.length ≤ maxTokens then content
  else applyBreaks naturalBreaks (tok.decode (tokens.take maxTokens)) ++ truncMarker

/-- `DocumentChunk` of `context_manager.py` (also the shape of a row of the
`chunks` table written by `_save_chunk`). -/
structure Chunk where
  id : List Char
  content : List Char
  title : List Char
  category : List Char
  tokens : ℕ
  embedding : Option (List ℚ) := none
  relevance_score : ℚ := 0
  last_accessed : Option ℤ := none

deriving instance DecidableEq, Repr for Chunk

/-- The `analysis` dictionary as used by the managers: only its `intent`
entry (`analysis.get('intent', '')`) is read. -/
structure Analysis where
  intent : List Char

deriving instance DecidableEq, Repr for Analysis

/-- `ContextManager._get_category_boost`: static priority table plus the
`elif` chain of intent-substring adjustments. -/
def getCategoryBoost (category : List Char) (analysis : Option Analysis) : ℚ :=
  match analysis with
  | none => 0
  | some a =>
    let intent := listToLower a.intent
    let hitFormula := containsSub ("formula".data) intent
    let hitApp := containsSub ("app".data) intent || containsSub ("extension".data) intent
    let hitMcp := containsSub ("mcp".data) intent || containsSub ("tool".data) intent
    if category = "api".data then 3/10
    else if category = "javascript".data then 2/10
    else if category = "mcp".data then
      (if !hitFormula && !hitApp && hitMcp then 5/10 else 4/10)
    else if category = "formulas".data then (if hitFormula then 4/10 else 1/10)
    else if category = "apps".data then
      (if !hitFormula && hitApp then 4/10 else 1/10)
    else 0

/-- `_get_recency_boost` (identical in both managers): 0.2 within the last
hour, 0.1 within the last day, else 0; 0 when never accessed. -/
def getRecencyBoost (now : ℤ) (last_accessed : Option ℤ) : ℚ :=
  match last_accessed with
  | none => 0
  | some t =>
    if now - t < 3600 then 2/10
    else if now - t < 86400 then 1/10
    else 0

/-- `np.dot` on embedding vectors, modelled rationally. -/
def dotQ (a b : List ℚ) : ℚ := (List.zipWith (fun x y => x * y) a b).sum

/-- The combined relevance score of one chunk with embedding `e` in
`ContextManager.get_relevant_context`. -/
def scoreChunk (qe : List ℚ) (analysis : Option Analysis) (now : ℤ)
    (c : Chunk) (e : List ℚ) : ℚ :=
  dotQ qe e + getCategoryBoost c.category analysis + getRecencyBoost now c.last_accessed

/-- The scoring loop of `ContextManager.get_relevant_context`: chunks without
an embedding are skipped (`continue`); every other chunk gets
`relevance_score` and `last_accessed` set and is appended to
`relevant_chunks`.  Returns (updated corpus, candidate list), both in corpus
order. -/
def scorePass (qe : List ℚ) (analysis : Option Analysis) (now : ℤ) :
    List Chunk → List Chunk × List Chunk
  | [] => ([], [])
  | c :: rest =>
    let p := scorePass qe analysis now rest
    match c.embedding with
    | none => (c :: p.1, p.2)
    | some e =>
      let c' := { c with relevance_score := scoreChunk qe analysis now c e,
                         last_accessed := some now }
      (c' :: p.1, c' :: p.2)

/-- Insertion step of a stable descending sort: the element being inserted is
earlier in the input, so it goes before any element of equal key. -/
def insertDescBy {α : Type} (f : α → ℚ) (x : α) : List α → List α
  | [] => [x]
  | h :: t => if f x < f h then h :: insertDescBy f x t else x :: h :: t

/-- Model of Python `list.sort(key=lambda x: x.relevance_score, reverse=True)`:
a stable descending sort (Python's sort is stable, and `reverse=True`
preserves stability). -/
def sortDescBy {α : Type} (f : α → ℚ) : List α → List α
  | [] => []
  | x :: xs => insertDescBy f x (sortDescBy f xs)

/-- The synthetic truncated chunk built in `_optimize_for_tokens`:
derived id, truncated content, `" (partial)"` title suffix, `tokens` set to
the remaining budget, `relevance_score` multiplied by 0.8, no embedding, no
access time (dataclass defaults). -/
def truncOf {τ : Type} (tok : Tokenizer τ) (c : Chunk) (remaining : ℕ) : Chunk :=
  { id := c.id ++ "_truncated".data
    content := truncateContent tok c.content remaining
    title := c.title ++ " (partial)".data
    category := c.category
    tokens := remaining
    embedding := none
    relevance_score := c.relevance_score * (8/10)
    last_accessed := none }

/-- `int(self.max_tokens * 0.7)`: the usable budget after the 30%
reservation. -/
def availableTokens (maxTokens : ℕ) : ℕ := maxTokens * 7 / 10

/-- The accumulation loop of `ContextManager._optimize_for_tokens`: append
whole chunks while they fit; at the first overflow, append one truncated
chunk when more than 500 tokens of budget remain, then stop. -/
def optimizeAux {τ : Type} (tok : Tokenizer τ) (avail : ℕ) :
    List Chunk → ℕ → List Chunk
  | [], _ => []
  | c :: rest, cur =>
    if cur + c.tokens ≤ avail then c :: optimizeAux tok avail rest (cur + c.tokens)
    else if 500 < avail - cur then [truncOf tok c (avail - cur)] else []

/-- `ContextManager._optimize_for_tokens`. -/
def optimizeForTokens {τ : Type} (tok : Tokenizer τ) (maxTokens : ℕ)
    (chunks : List Chunk) : List Chunk :=
  optimizeAux tok (availableTokens maxTokens) chunks 0

/-- `ContextManager.get_relevant_context`: score all chunks, sort the
candidates stably by score descending, keep the first `maxChunks`, and fit
them to the token budget.  Returns (selected chunks, updated corpus); the
database write of `_update_access_times` is outside the model. -/
def getRelevantContext {τ : Type} (tok : Tokenizer τ) (maxTokens maxChunks : ℕ)
    (qe : List ℚ) (analysis : Option Analysis) (now : ℤ)
    (corpus : List Chunk) : List Chunk × List Chunk :=
  let p := scorePass qe analysis now corpus
  let sorted := sortDescBy (fun c => c.relevance_score) p.2
  (optimizeForTokens tok maxTokens (sorted.take maxChunks), p.1)

/-- `DocumentChunk` of `context_manager_basic.py` (no embedding field). -/
structure BasicChunk where
  id : List Char
  content : List Char
  title : List Char
  category : List Char
  tokens : ℕ
  relevance_score : ℚ := 0
  last_accessed : Option ℤ := none

deriving instance DecidableEq, Repr for BasicChunk

/-- The `stop_words` set literal of `_extract_keywords` ('that' is listed
twice in the source; membership is unaffected). -/
def stopWords : List (List Char) :=
  ["a".data, "an".data, "and".data, "are".data, "as".data, "at".data,
   "be".data, "by".data, "for".data, "from".data, "has".data, "he".data,
   "in".data, "is".data, "it".data, "its".data, "of".data, "on".data,
   "that".data, "the".data, "to".data, "was".data, "were".data, "will".data,
   "with".data, "can".data, "how".data, "what".data, "when".data,
   "where".data, "why".data, "i".data, "you".data, "me".data, "my".data,
   "your".data, "this".data, "that".data]

/-- `ContextManagerBasic._extract_keywords`: split on whitespace, strip
surrounding punctuation, lowercase, keep non-empty words longer than two
characters that are not stop words; collect into a set. -/
def extractKeywords (text : List Char) : Finset (List Char) :=
  (((splitWs text).map (fun w => listToLower (pyStrip stripSet w))).filter
    (fun w => !w.isEmpty && decide (2 < w.length) && !(stopWords.contains w))).toFinset

/-- `ContextManagerBasic._get_category_boost`: the static priority table,
with no intent adjustment. -/
def getCategoryBoostB (category : List Char) (analysis : Option Analysis) : ℚ :=
  match analysis with
  | none => 0
  | some _ =>
    if category = "api".data then 3/10
    else if category = "javascript".data then 2/10
    else if category = "mcp".data then 4/10
    else if category = "formulas".data then 1/10
    else if category = "apps".data then 1/10
    else 0

/-- The keyword set of a basic chunk: `(content + ' ' + title).lower()` fed
to `_extract_keywords`. -/
def chunkKeywords (c : BasicChunk) : Finset (List Char) :=
  extractKeywords (listToLower (c.content ++ ' ' :: c.title))

/-- `ContextManagerBasic._calculate_keyword_score`: normalized keyword
overlap plus category and recency boosts. -/
def calculateKeywordScore (qk : Finset (List Char)) (c : BasicChunk)
    (analysis : Option Analysis) (now : ℤ) : ℚ :=
  ((qk ∩ chunkKeywords c).card : ℚ) / ((max qk.card 1 : ℕ) : ℚ)
    + getCategoryBoostB c.category analysis + getRecencyBoost now c.last_accessed

/-- The scoring loop of `ContextManagerBasic.get_relevant_context`: every
chunk is scored; only chunks with positive score are mutated and kept as
candidates. -/
def scorePassB (qk : Finset (List Char)) (analysis : Option Analysis) (now : ℤ) :
    List BasicChunk → List BasicChunk × List BasicChunk
  | [] => ([], [])
  | c :: rest =>
    let s := calculateKeywordScore qk c analysis now
    let p := scorePassB qk analysis now rest
    if 0 < s then
      ({ c with relevance_score := s, last_accessed := some now } :: p.1,
       { c with relevance_score := s, last_accessed := some now } :: p.2)
    else (c :: p.1, p.2)

/-- The accumulation loop of `ContextManagerBasic._optimize_for_tokens`
(no truncation branch: it stops at the first chunk that does not fit). -/
def optimizeAuxB (avail : ℕ) : List BasicChunk → ℕ → List BasicChunk
  | [], _ => []
  | c :: rest, cur =>
    if cur + c.tokens ≤ avail then c :: optimizeAuxB avail rest (cur + c.tokens)
    else []

/-- `ContextManagerBasic.get_relevant_context`. -/
def getRelevantContextB (maxTokens maxChunks : ℕ) (query : List Char)
    (analysis : Option Analysis) (now : ℤ) (corpus : List BasicChunk) :
    List BasicChunk × List BasicChunk :=
  let qk := extractKeywords (listToLower query)
  let p := scorePassB qk analysis now corpus
  let sorted := sortDescBy (fun c => c.relevance_score) p.2
  (optimizeAuxB (availableTokens maxTokens) (sorted.take maxChunks) 0, p.1)

/-- `_save_chunk`: `INSERT OR REPLACE` keyed by the `id` primary key,
modelled on an association list: replace the existing row in place, or
append. -/
def upsertChunk (row : Chunk) : List Chunk → List Chunk
  | [] => [row]
  | r :: rs => if r.id = row.id then row :: rs else r :: upsertChunk row rs

/-- Point read of the store by id (first matching row). -/
def lookupChunk (i : List Char) : List Chunk → Option Chunk
  | [] => none
  | r :: rs => if r.id = i then some r else lookupChunk i rs

/-- The chunk built for one `(content, title)` piece in
`ContextManager._process_file`: the id is the (stable, content-derived)
hash of `content + title + category`; `hash` models
`sha256(...).hexdigest()[:16]`, `embed` the sentence-transformer encoder and
`countTokens` the tokenizer length. -/
def mkChunk (hash : List Char → List Char) (embed : List Char → List ℚ)
    (countTokens : List Char → ℕ) (category content title : List Char) : Chunk :=
  { id := hash (content ++ title ++ category)
    content := content
    title := title
    category := category
    tokens := countTokens content
    embedding := some (embed content)
    relevance_score := 0
    last_accessed := none }

/-- Folding a row list into the store through `_save_chunk` upserts. -/
def ingestRows (rows : List Chunk) (store : List Chunk) : List Chunk :=
  rows.foldl (fun st r => upsertChunk r st) store

/-- The ingestion loop of `ContextManager._process_file` over the pieces
produced by `_smart_chunking` (chunking is a pure function of the document,
so re-processing the same document presents the same `pieces` list).
Returns (persistent store, in-memory `self.chunks` list). -/
def processFileChunks (hash : List Char → List Char) (embed : List Char → List ℚ)
    (countTokens : List Char → ℕ) (category : List Char)
    (pieces : List (List Char × List Char)) (store mem : List Chunk) :
    List Chunk × List Chunk :=
  let rows := pieces.map (fun p => mkChunk hash embed countTokens category p.1 p.2)
  (ingestRows rows store, mem ++ rows)

/-- Modelled from the spec (claim C6's wording, for comparison with the
code's `applyBreaks`): cut at the nearest qualifying natural break, i.e. the
qualifying cut position closest to the raw cut point, regardless of break
type. -/
def specNearestBreakCut (s : List Char) : List Char :=
  match (naturalBreaks.filterMap (fun bp => breakCut s bp)).max? with
  | some cut => s.take cut
  | none => s

/-- Modelled from the spec (claim C6's wording): truncation with the
nearest-break cut policy. -/
def specTruncateContent {τ : Type} (tok : Tokenizer τ) (content : List Char)
    (maxTokens : ℕ) : List Char :=
  let tokens := tok.encode content
  if tokens.length ≤ maxTokens then content
  else specNearestBreakCut (tok.decode (tokens.take maxTokens)) ++ truncMarker

/-- Total token cost of a selection (sum of the `tokens` field). -/
def sumTokens (l : List Chunk) : ℕ := (l.map (fun c => c.tokens)).sum

/-- Total token cost of a basic selection. -/
def sumTokensB (l : List BasicChunk) : ℕ := (l.map (fun c => c.tokens)).sum

/- Helper lemmas about the budget optimizer. -/

lemma optimizeAux_budget {τ : Type} (tok : Tokenizer τ) (avail : ℕ) :
    ∀ (l : List Chunk) (cur : ℕ), cur ≤ avail →
      cur + sumTokens (optimizeAux tok avail l cur) ≤ avail := by
  intro l
  induction l with
  | nil => intro cur h; simpa [optimizeAux, sumTokens] using h
  | cons c rest ih =>
    intro cur h
    by_cases hfit : cur + c.tokens ≤ avail
    · have hrec := ih (cur + c.tokens) hfit
      simp only [optimizeAux, hfit, if_true, sumTokens, List.map_cons,
        List.sum_cons] at hrec ⊢
      omega
    · by_cases hrem : 500 < avail - cur
      · simp only [optimizeAux, hfit, if_false, hrem, if_true, sumTokens,
          List.map_cons, List.map_nil, List.sum_cons, List.sum_nil, truncOf]
        omega
      · simp only [optimizeAux, hfit, if_false, hrem, sumTokens,
          List.map_nil, List.sum_nil]
        omega

lemma optimizeAuxB_budget (avail : ℕ) :
    ∀ (l : List BasicChunk) (cur : ℕ), cur ≤ avail →
      cur + sumTokensB (optimizeAuxB avail l cur) ≤ avail := by
  intro l
  induction l with
  | nil => intro cur h; simpa [optimizeAuxB, sumTokensB] using h
  | cons c rest ih =>
    intro cur h
    by_cases hfit : cur + c.tokens ≤ avail
    · have hrec := ih (cur + c.tokens) hfit
      simp only [optimizeAuxB, hfit, if_true, sumTokensB, List.map_cons,
        List.sum_cons] at hrec ⊢
      omega
    · simp only [optimizeAuxB, hfit, if_false, sumTokensB, List.map_nil,
        List.sum_nil]
      omega

/-- C1: for every call to `_optimize_for_tokens` (semantic and basic manager
alike) with fragments of non-negative token count (tokens are `ℕ` in the
model) and any ceiling `maxTokens`, the sum of the `tokens` field over the
returned list is at most `maxTokens × 0.7` (stated rationally as
`10 × sum ≤ 7 × maxTokens`), including the case where a synthetic truncated
fragment is appended as the last element. -/
theorem C1_budget_respected {τ : Type} (tok : Tokenizer τ) (maxTokens : ℕ)
    (chunks : List Chunk) (chunksB : List BasicChunk) :
    10 * sumTokens (optimizeForTokens tok maxTokens chunks) ≤ 7 * maxTokens ∧
    10 * sumTokensB (optimizeAuxB (availableTokens maxTokens) chunksB 0) ≤ 7 * maxTokens := by
  have hdiv : availableTokens maxTokens * 10 ≤ maxTokens * 7 :=
    Nat.div_mul_le_self (maxTokens * 7) 10
  constructor
  · have h := optimizeAux_budget tok (availableTokens maxTokens) chunks 0 (Nat.zero_le _)
    simp only [optimizeForTokens]
    omega
  · have h := optimizeAuxB_budget (availableTokens maxTokens) chunksB 0 (Nat.zero_le _)
    omega

/-- C8: the recency boost is exactly 0.2 when `lastAccessed` is within the
last hour, exactly 0.1 when within the last day but not the last hour, 0
otherwise and 0 when absent; consequently a fragment accessed 30 minutes ago
(1800 s), identical to a never-accessed fragment in every other field, scores
exactly 0.2 higher. -/
theorem C8_recency_boost (now : ℤ) :
    getRecencyBoost now none = 0 ∧
    (∀ t : ℤ, now - t < 3600 → getRecencyBoost now (some t) = 2/10) ∧
    (∀ t : ℤ, 3600 ≤ now - t → now - t < 86400 → getRecencyBoost now (some t) = 1/10) ∧
    (∀ t : ℤ, 86400 ≤ now - t → getRecencyBoost now (some t) = 0) ∧
    (∀ (qe e : List ℚ) (analysis : Option Analysis) (c : Chunk),
      scoreChunk qe analysis now { c with last_accessed := some (now - 1800) } e
        = scoreChunk qe analysis now { c with last_accessed := none } e + 2/10) := by
  refine ⟨rfl, ?_, ?_, ?_, ?_⟩
  · intro t h
    simp only [getRecencyBoost, if_pos h]
  · intro t h1 h2
    rw [getRecencyBoost, if_neg (by omega), if_pos h2]
  · intro t h
    rw [getRecencyBoost, if_neg (by omega), if_neg (by omega)]
  · intro qe e analysis c
    simp only [scoreChunk, getRecencyBoost]
    rw [show now - (now - 1800) = 1800 by ring]
    rw [if_pos (show (1800 : ℤ) < 3600 by norm_num)]
    ring

/-- Witness for C8 at concrete times: never accessed, 1000 s ago, 5000 s ago,
100000 s ago, and the 30-minute scenario on a concrete chunk. -/
theorem C8_recency_boost_witness :
    getRecencyBoost 100000 none = 0 ∧
    getRecencyBoost 100000 (some 99000) = 2/10 ∧
    getRecencyBoost 100000 (some 95000) = 1/10 ∧
    getRecencyBoost 100000 (some 0) = 0 ∧
    scoreChunk [1] none 100000
        { id := "a".data, content := "x".data, title := "t".data,
          category := "api".data, tokens := 5,
          last_accessed := some (100000 - 1800) } [1]
      = scoreChunk [1] none 100000
        { id := "a".data, content := "x".data, title := "t".data,
          category := "api".data, tokens := 5, last_accessed := none } [1] + 2/10 :=
  ⟨(C8_recency_boost 100000).1,
   (C8_recency_boost 100000).2.1 99000 (by norm_num),
   (C8_recency_boost 100000).2.2.1 95000 (by norm_num) (by norm_num),
   (C8_recency_boost 100000).2.2.2.1 0 (by norm_num),
   (C8_recency_boost 100000).2.2.2.2 [1] [1] none
     { id := "a".data, content := "x".data, title := "t".data,
       category := "api".data, tokens := 5 }⟩

/-- C5 counterexample: with intent hint "webhook_manage", a fragment tagged
"webhooks" does NOT score strictly higher than an otherwise identical
fragment tagged "formulas" — "webhooks" is not in the category priority table
(boost 0) while "formulas" gets 0.1, so the claim fails at this input. -/
theorem C5_counterexample :
    ¬ (scoreChunk [1] (some ⟨"webhook_manage".data⟩) 0
        { id := "w".data, content := "x".data, title := "t".data,
          category := "webhooks".data, tokens := 100 } [1]
      > scoreChunk [1] (some ⟨"webhook_manage".data⟩) 0
        { id := "f".data, content := "x".data, title := "t".data,
          category := "formulas".data, tokens := 100 } [1]) := by
  have hw : getCategoryBoost ("webhooks".data) (some ⟨"webhook_manage".data⟩) = 0 := rfl
  have hf : getCategoryBoost ("formulas".data) (some ⟨"webhook_manage".data⟩) = 1/10 := rfl
  norm_num [scoreChunk, dotQ, hw, hf, getRecencyBoost]

/-- C5 amended: under intent hint "webhook_manage" the categories "webhooks"
and "integration" are outside the priority table and receive boost 0, the
intent matches no adjustment rule, and "formulas" receives boost 0.1; hence a
"formulas" fragment scores exactly 0.1 higher than an otherwise identical
"webhooks" or "integration" fragment, and "webhooks" and "integration"
fragments score equally. -/
theorem C5_amended (base : Chunk) (qe e : List ℚ) (now : ℤ) :
    scoreChunk qe (some ⟨"webhook_manage".data⟩) now
        { base with category := "formulas".data } e
      = scoreChunk qe (some ⟨"webhook_manage".data⟩) now
        { base with category := "webhooks".data } e + 1/10 ∧
    scoreChunk qe (some ⟨"webhook_manage".data⟩) now
        { base with category := "integration".data } e
      = scoreChunk qe (some ⟨"webhook_manage".data⟩) now
        { base with category := "webhooks".data } e := by
  have hf : getCategoryBoost ("formulas".data) (some ⟨"webhook_manage".data⟩) = 1/10 := rfl
  have hw : getCategoryBoost ("webhooks".data) (some ⟨"webhook_manage".data⟩) = 0 := rfl
  have hi : getCategoryBoost ("integration".data) (some ⟨"webhook_manage".data⟩) = 0 := rfl
  constructor
  · simp only [scoreChunk, hf, hw]
    ring
  · simp only [scoreChunk, hi, hw]

/- Helper lemmas about the stable descending sort. -/

lemma mem_insertDescBy {α : Type} (f : α → ℚ) (x : α) (l : List α) (a : α) :
    a ∈ insertDescBy f x l ↔ a = x ∨ a ∈ l := by
  induction l with
  | nil => simp [insertDescBy]
  | cons h t ih =>
    by_cases hc : f x < f h
    · simp only [insertDescBy, if_pos hc, List.mem_cons, ih]
      tauto
    · simp only [insertDescBy, if_neg hc, List.mem_cons]

lemma pairwise_insertDescBy {α : Type} (f : α → ℚ) (x : α) (l : List α)
    (h : l.Pairwise (fun a b => f b ≤ f a)) :
    (insertDescBy f x l).Pairwise (fun a b => f b ≤ f a) := by
  induction l with
  | nil => simp [insertDescBy]
  | cons hd t ih =>
    rcases List.pairwise_cons.mp h with ⟨hhd, ht⟩
    by_cases hc : f x < f hd
    · rw [insertDescBy, if_pos hc]
      refine List.pairwise_cons.mpr ⟨?_, ih ht⟩
      intro b hb
      rcases (mem_insertDescBy f x t b).mp hb with rfl | hbt
      · exact le_of_lt hc
      · exact hhd b hbt
    · rw [insertDescBy, if_neg hc]
      refine List.pairwise_cons.mpr ⟨?_, h⟩
      intro b hb
      rcases List.mem_cons.mp hb with rfl | hbt
      · exact not_lt.mp hc
      · exact le_trans (hhd b hbt) (not_lt.mp hc)

lemma pairwise_sortDescBy {α : Type} (f : α → ℚ) (l : List α) :
    (sortDescBy f l).Pairwise (fun a b => f b ≤ f a) := by
  induction l with
  | nil => simp [sortDescBy]
  | cons x xs ih => exact pairwise_insertDescBy f x _ ih

lemma mem_sortDescBy {α : Type} (f : α → ℚ) (l : List α) (a : α) :
    a ∈ sortDescBy f l ↔ a ∈ l := by
  induction l with
  | nil => simp [sortDescBy]
  | cons x xs ih => simp [sortDescBy, mem_insertDescBy, ih]

lemma filter_insertDescBy {α : Type} (f : α → ℚ) (x : α) (l : List α) (s : ℚ) :
    (insertDescBy f x l).filter (fun a => decide (f a = s))
      = if f x = s then x :: l.filter (fun a => decide (f a = s))
        else l.filter (fun a => decide (f a = s)) := by
  induction l with
  | nil =>
    by_cases hx : f x = s <;> simp [insertDescBy, hx]
  | cons hd t ih =>
    by_cases hc : f x < f hd
    · rw [insertDescBy, if_pos hc]
      by_cases hx : f x = s
      · have hhd : ¬ (f hd = s) := fun he => absurd (hx ▸ he : f hd = f x) (ne_of_gt hc)
        rw [List.filter_cons_of_neg (by simp [hhd]), ih,
          List.filter_cons_of_neg (by simp [hhd])]
      · rw [List.filter_cons, List.filter_cons, ih]
        simp [hx]
    · rw [insertDescBy, if_neg hc]
      by_cases hx : f x = s
      · rw [List.filter_cons_of_pos (by simp [hx]), if_pos hx]
      · rw [List.filter_cons_of_neg (by simp [hx]), if_neg hx]

lemma filter_sortDescBy {α : Type} (f : α → ℚ) (l : List α) (s : ℚ) :
    (sortDescBy f l).filter (fun a => decide (f a = s))
      = l.filter (fun a => decide (f a = s)) := by
  induction l with
  | nil => rfl
  | cons x xs ih =>
    rw [sortDescBy, filter_insertDescBy]
    simp only [ih]
    by_cases hx : f x = s
    · rw [if_pos hx, List.filter_cons_of_pos (by simp [hx])]
    · rw [if_neg hx, List.filter_cons_of_neg (by simp [hx])]

/- Structural characterization of the budget optimizer: the output is a
prefix of its input, possibly followed by exactly one synthetic truncated
fragment built from the first chunk that did not fit. -/

lemma optimizeAux_structure {τ : Type} (tok : Tokenizer τ) (avail : ℕ) :
    ∀ (l : List Chunk) (cur : ℕ),
      (∃ k, optimizeAux tok avail l cur = l.take k) ∨
      (∃ k c rest rem, l.drop k = c :: rest ∧
        optimizeAux tok avail l cur = l.take k ++ [truncOf tok c rem]) := by
  intro l
  induction l with
  | nil => intro cur; exact Or.inl ⟨0, by simp [optimizeAux]⟩
  | cons c rest ih =>
    intro cur
    by_cases hfit : cur + c.tokens ≤ avail
    · rcases ih (cur + c.tokens) with ⟨k, hk⟩ | ⟨k, c', rest', rem, hdrop, heq⟩
      · exact Or.inl ⟨k + 1, by simp [optimizeAux, hfit, hk]⟩
      · refine Or.inr ⟨k + 1, c', rest', rem, by simpa using hdrop, ?_⟩
        simp [optimizeAux, hfit, heq]
    · by_cases hrem : 500 < avail - cur
      · exact Or.inr ⟨0, c, rest, avail - cur, by simp, by simp [optimizeAux, hfit, hrem]⟩
      · exact Or.inl ⟨0, by simp [optimizeAux, hfit, hrem]⟩

/-- C3 counterexample: a two-chunk corpus whose computed scores are negative
(query embedding `[-1]`, chunk embeddings `[1]`): the budget optimizer
truncates the second chunk and multiplies its score by 0.8, which RAISES a
negative score, so the returned list has scores `[-1, -4/5]` — not sorted
descending.  The claim as stated is false. -/
theorem C3_counterexample :
    ¬ ((getRelevantContext charTok 1600 10 [-1] none 0
        [{ id := ['a'], content := ['x'], title := ['t'],
           category := "api".data, tokens := 600, embedding := some [1] },
         { id := ['b'], content := ['x'], title := ['t'],
           category := "api".data, tokens := 1200, embedding := some [1] }]).1.Pairwise
      (fun a b => b.relevance_score ≤ a.relevance_score)) := by
  norm_num [getRelevantContext, scorePass, scoreChunk, dotQ, getCategoryBoost,
    getRecencyBoost, sortDescBy, insertDescBy, optimizeForTokens, availableTokens,
    optimizeAux, truncOf, truncateContent, charTok, List.pairwise_cons]

/-- C3 amended: the candidate list is stably sorted by `relevance_score`
descending — the ranked list is pairwise descending and, for every score
value, the candidates attaining it keep their original insertion order — and
the returned list is a prefix of the ranked top-`maxChunks` list possibly
followed by one synthetic truncated fragment; the full returned list is
pairwise descending whenever every candidate score is non-negative (the
synthetic fragment's 0.8-scaled score breaks the order only for negative
scores, as the counterexample shows). -/
theorem C3_amended {τ : Type} (tok : Tokenizer τ) (maxTokens maxChunks : ℕ)
    (qe : List ℚ) (analysis : Option Analysis) (now : ℤ) (corpus : List Chunk) :
    (sortDescBy (fun c => c.relevance_score) (scorePass qe analysis now corpus).2).Pairwise
      (fun a b => b.relevance_score ≤ a.relevance_score) ∧
    (∀ s : ℚ,
      (sortDescBy (fun c => c.relevance_score) (scorePass qe analysis now corpus).2).filter
          (fun c => decide (c.relevance_score = s))
        = (scorePass qe analysis now corpus).2.filter
            (fun c => decide (c.relevance_score = s))) ∧
    ((∃ k, (getRelevantContext tok maxTokens maxChunks qe analysis now corpus).1
        = ((sortDescBy (fun c => c.relevance_score)
            (scorePass qe analysis now corpus).2).take maxChunks).take k) ∨
      (∃ k c rest rem,
        ((sortDescBy (fun c => c.relevance_score)
            (scorePass qe analysis now corpus).2).take maxChunks).drop k = c :: rest ∧
        (getRelevantContext tok maxTokens maxChunks qe analysis now corpus).1
          = ((sortDescBy (fun c => c.relevance_score)
              (scorePass qe analysis now corpus).2).take maxChunks).take k
            ++ [truncOf tok c rem])) ∧
    ((∀ c ∈ (scorePass qe analysis now corpus).2, 0 ≤ c.relevance_score) →
      (getRelevantContext tok maxTokens maxChunks qe analysis now corpus).1.Pairwise
        (fun a b => b.relevance_score ≤ a.relevance_score)) := by
  set cand := (scorePass qe analysis now corpus).2 with hcand
  set ranked := sortDescBy (fun c => c.relevance_score) cand with hranked
  set sel := ranked.take maxChunks with hsel
  have hout : (getRelevantContext tok maxTokens maxChunks qe analysis now corpus).1
      = optimizeAux tok (availableTokens maxTokens) sel 0 := rfl
  have hpair : ranked.Pairwise (fun a b => b.relevance_score ≤ a.relevance_score) :=
    pairwise_sortDescBy _ cand
  have hselpair : sel.Pairwise (fun a b => b.relevance_score ≤ a.relevance_score) :=
    hpair.sublist (List.take_sublist _ _)
  refine ⟨hpair, fun s => filter_sortDescBy _ cand s, ?_, ?_⟩
  · rw [hout]
    exact optimizeAux_structure tok _ sel 0
  · intro hnn
    rcases optimizeAux_structure tok (availableTokens maxTokens) sel 0 with
      ⟨k, hk⟩ | ⟨k, c, rest, rem, hdrop, heq⟩
    · rw [hout, hk]
      exact hselpair.sublist (List.take_sublist _ _)
    · rw [hout, heq]
      have hcsel : c ∈ sel :=
        List.mem_of_mem_drop (hdrop ▸ List.mem_cons_self c rest)
      have hccand : c ∈ cand := (mem_sortDescBy _ cand c).mp (List.mem_of_mem_take hcsel)
      have hc0 : 0 ≤ c.relevance_score := hnn c hccand
      rw [List.pairwise_append]
      refine ⟨hselpair.sublist (List.take_sublist _ _), by simp, ?_⟩
      intro a ha b hb
      rw [List.mem_singleton] at hb
      subst hb
      have h2 : c.relevance_score * (8/10) ≤ c.relevance_score := by linarith
      have h3 : c.relevance_score ≤ a.relevance_score := by
        have hsplit := hselpair
        rw [← List.take_append_drop k sel] at hsplit
        rcases List.pairwise_append.mp hsplit with ⟨_, _, hcross⟩
        exact hcross a ha c (hdrop ▸ List.mem_cons_self c rest)
      exact le_trans h2 h3

/-- Witness for C3 amended: a concrete two-chunk corpus with non-negative
scores on which the hypothesis holds and the returned list is sorted. -/
theorem C3_amended_witness :
    (∀ c ∈ (scorePass [1] none 0
        [{ id := ['a'], content := ['x'], title := ['t'],
           category := "api".data, tokens := 600, embedding := some [1] },
         { id := ['b'], content := ['x'], title := ['t'],
           category := "api".data, tokens := 1200, embedding := some [1] }]).2,
        0 ≤ c.relevance_score) ∧
    (getRelevantContext charTok 1600 10 [1] none 0
        [{ id := ['a'], content := ['x'], title := ['t'],
           category := "api".data, tokens := 600, embedding := some [1] },
         { id := ['b'], content := ['x'], title := ['t'],
           category := "api".data, tokens := 1200, embedding := some [1] }]).1.Pairwise
      (fun a b => b.relevance_score ≤ a.relevance_score) :=
  ⟨by norm_num [scorePass, scoreChunk, dotQ, getCategoryBoost, getRecencyBoost],
   (C3_amended charTok 1600 10 [1] none 0 _).2.2.2
     (by norm_num [scorePass, scoreChunk, dotQ, getCategoryBoost, getRecencyBoost])⟩

/- Helper lemmas about the truncation cut. -/

lemma applyBreaks_length : ∀ (bs : List (List Char)) (s : List Char),
    (applyBreaks bs s).length ≤ s.length := by
  intro bs
  induction bs with
  | nil => intro s; exact le_refl _
  | cons bp rest ih =>
    intro s
    cases hb : breakCut s bp with
    | some cut =>
      simp only [applyBreaks, hb, List.length_take]
      exact min_le_right _ _
    | none =>
      simp only [applyBreaks, hb]
      exact ih s

/-- C2 counterexample: truncating 30 characters to 10 tokens (character-level
tokenizer) yields the 10-character prefix PLUS the 24-character truncation
marker, which measures 34 tokens — more than the limit of 10.  The claim that
the result never measures more than `N` tokens is false on the code. -/
theorem C2_counterexample :
    ¬ ((charTok.encode (truncateContent charTok (List.replicate 30 'a') 10)).length ≤ 10) := by
  decide

/-- C2 amended: content within the limit is returned unchanged; when the
original exceeds `N` tokens, the portion BEFORE the appended marker measures
at most `N` tokens, the whole result measures at most `N` plus the marker's
own token count, and the result ends with the truncation marker.  (The code
appends the marker after cutting at the limit, so the full result may exceed
`N` by the marker's cost — the original claim's bound holds only for the
pre-marker portion.) -/
theorem C2_amended (content : List Char) (n : ℕ) :
    ((charTok.encode content).length ≤ n → truncateContent charTok content n = content) ∧
    (n < (charTok.encode content).length →
      ∃ pre, truncateContent charTok content n = pre ++ truncMarker ∧
        (charTok.encode pre).length ≤ n ∧
        (charTok.encode (truncateContent charTok content n)).length ≤ n + truncMarker.length ∧
        truncMarker <:+ truncateContent charTok content n) := by
  constructor
  · intro h
    simp [truncateContent, h]
  · intro h
    have hnle : ¬ (content.length ≤ n) := not_le.mpr h
    have heq : truncateContent charTok content n
        = applyBreaks naturalBreaks (content.take n) ++ truncMarker := by
      simp [truncateContent, charTok, hnle]
    have h1 := applyBreaks_length naturalBreaks (content.take n)
    have h2 : (content.take n).length ≤ n := by
      rw [List.length_take]
      omega
    refine ⟨applyBreaks naturalBreaks (content.take n), heq, ?_, ?_, ?_⟩
    · calc (charTok.encode (applyBreaks naturalBreaks (content.take n))).length
          = (applyBreaks naturalBreaks (content.take n)).length := rfl
        _ ≤ (content.take n).length := h1
        _ ≤ n := h2
    · rw [heq]
      show (applyBreaks naturalBreaks (content.take n) ++ truncMarker).length
          ≤ n + truncMarker.length
      rw [List.length_append]
      omega
    · rw [heq]
      exact List.suffix_append _ _

/-- Witness for C2 amended: the 30-character content truncated to 10 tokens. -/
theorem C2_amended_witness :
    10 < (charTok.encode (List.replicate 30 'a')).length ∧
    (∃ pre, truncateContent charTok (List.replicate 30 'a') 10 = pre ++ truncMarker ∧
      (charTok.encode pre).length ≤ 10 ∧
      (charTok.encode (truncateContent charTok (List.replicate 30 'a') 10)).length
        ≤ 10 + truncMarker.length ∧
      truncMarker <:+ truncateContent charTok (List.replicate 30 'a') 10) :=
  ⟨by decide, (C2_amended (List.replicate 30 'a') 10).2 (by decide)⟩

/- Characterization of the natural-break loop: it cuts at the FIRST break
string in source order whose last occurrence qualifies, not at the nearest
qualifying break. -/

lemma applyBreaks_spec : ∀ (bs : List (List Char)) (s : List Char),
    (applyBreaks bs s = s ∧ ∀ bp ∈ bs, breakCut s bp = none) ∨
    (∃ pre bp post cut, bs = pre ++ bp :: post ∧
      (∀ bp' ∈ pre, breakCut s bp' = none) ∧
      breakCut s bp = some cut ∧ applyBreaks bs s = s.take cut) := by
  intro bs
  induction bs with
  | nil => intro s; exact Or.inl ⟨rfl, by simp⟩
  | cons bp rest ih =>
    intro s
    cases hb : breakCut s bp with
    | some cut =>
      refine Or.inr ⟨[], bp, rest, cut, rfl, by simp, hb, ?_⟩
      simp [applyBreaks, hb]
    | none =>
      rcases ih s with ⟨h1, h2⟩ | ⟨pre, bp', post, cut, hbs, hpre, hcut, heq⟩
      · refine Or.inl ⟨by simp [applyBreaks, hb, h1], ?_⟩
        intro b hbmem
        rcases List.mem_cons.mp hbmem with rfl | hmem
        · exact hb
        · exact h2 b hmem
      · refine Or.inr ⟨bp :: pre, bp', post, cut, by rw [hbs]; rfl, ?_, hcut, ?_⟩
        · intro b hbmem
          rcases List.mem_cons.mp hbmem with rfl | hmem
          · exact hb
          · exact hpre b hmem
        · simp [applyBreaks, hb, heq]

/-- A 50-character content whose 40-character truncation window contains a
paragraph break at index 33 and a closer sentence end at index 37: the code
cuts at the paragraph break (first break type in the list), the claimed
policy would cut at the nearest break. -/
def c6sample : List Char :=
  List.replicate 33 'a' ++ "\n\n".data ++ "bc".data ++ ". ".data ++ "d".data
    ++ List.replicate 10 'e'

/-- C6 counterexample: the code's truncation differs from the claimed
nearest-break policy on `c6sample` at limit 40 — the code cuts at the last
`"\n\n"` (index 33, the first break type in source order that qualifies)
instead of the nearer qualifying `". "` at index 37. -/
theorem C6_counterexample :
    truncateContent charTok c6sample 40 ≠ specTruncateContent charTok c6sample 40 := by
  decide

/-- C6 amended: when content exceeds the limit, the result is the decoded
window with the break cut applied, plus the marker; and the break cut either
leaves the window unchanged (no break type qualifies: its last occurrence is
missing or not within the final 20%) or cuts after the last occurrence of the
FIRST break string in the source-order list `['\n\n', '\n### ', '\n## ',
'. ', '.\n']` whose last occurrence lies in the final 20% — a type-priority
rule, not the claimed nearest-break rule. -/
theorem C6_amended {τ : Type} (tok : Tokenizer τ) (content : List Char) (n : ℕ)
    (h : n < (tok.encode content).length) :
    truncateContent tok content n
      = applyBreaks naturalBreaks (tok.decode ((tok.encode content).take n))
        ++ truncMarker ∧
    ((applyBreaks naturalBreaks (tok.decode ((tok.encode content).take n))
        = tok.decode ((tok.encode content).take n) ∧
      ∀ bp ∈ naturalBreaks,
        breakCut (tok.decode ((tok.encode content).take n)) bp = none) ∨
     (∃ pre bp post cut, naturalBreaks = pre ++ bp :: post ∧
       (∀ bp' ∈ pre, breakCut (tok.decode ((tok.encode content).take n)) bp' = none) ∧
       breakCut (tok.decode ((tok.encode content).take n)) bp = some cut ∧
       applyBreaks naturalBreaks (tok.decode ((tok.encode content).take n))
         = (tok.decode ((tok.encode content).take n)).take cut)) := by
  have h' : ¬ ((tok.encode content).length ≤ n) := not_le.mpr h
  exact ⟨by simp [truncateContent, h'], applyBreaks_spec naturalBreaks _⟩

/-- Witness for C6 amended at the concrete sample content and limit 40. -/
theorem C6_amended_witness :
    40 < (charTok.encode c6sample).length ∧
    truncateContent charTok c6sample 40
      = applyBreaks naturalBreaks (charTok.decode ((charTok.encode c6sample).take 40))
        ++ truncMarker :=
  ⟨by decide, (C6_amended charTok c6sample 40 (by decide)).1⟩

/- Helper lemmas for the degraded-mode behavior (claim C4). -/

lemma scorePass_snd_nil (qe : List ℚ) (analysis : Option Analysis) (now : ℤ) :
    ∀ (corpus : List Chunk), (∀ c ∈ corpus, c.embedding = none) →
      (scorePass qe analysis now corpus).2 = [] := by
  intro corpus
  induction corpus with
  | nil => intro _; rfl
  | cons c rest ih =>
    intro h
    have hc : c.embedding = none := h c (List.mem_cons_self c rest)
    have hr := ih (fun d hd => h d (List.mem_cons_of_mem c hd))
    simp [scorePass, hc, hr]

lemma getCategoryBoostB_nonneg (category : List Char) (analysis : Option Analysis) :
    0 ≤ getCategoryBoostB category analysis := by
  cases analysis with
  | none => norm_num [getCategoryBoostB]
  | some a =>
    simp only [getCategoryBoostB]
    split_ifs <;> norm_num

lemma getRecencyBoost_nonneg (now : ℤ) (la : Option ℤ) :
    0 ≤ getRecencyBoost now la := by
  cases la with
  | none => norm_num [getRecencyBoost]
  | some t =>
    simp only [getRecencyBoost]
    split_ifs <;> norm_num

lemma calculateKeywordScore_pos (qk : Finset (List Char)) (c : BasicChunk)
    (analysis : Option Analysis) (now : ℤ)
    (h : 0 < (qk ∩ chunkKeywords c).card) :
    0 < calculateKeywordScore qk c analysis now := by
  have h1 : (0:ℚ) < ((qk ∩ chunkKeywords c).card : ℚ) / ((max qk.card 1 : ℕ) : ℚ) := by
    apply div_pos
    · exact_mod_cast h
    · have hm : 0 < max qk.card 1 := by omega
      exact_mod_cast hm
  have h2 := getCategoryBoostB_nonneg c.category analysis
  have h3 := getRecencyBoost_nonneg now c.last_accessed
  unfold calculateKeywordScore
  linarith

lemma calculateKeywordScore_zero (qk : Finset (List Char)) (c : BasicChunk) (now : ℤ)
    (h : (qk ∩ chunkKeywords c).card = 0) (hla : c.last_accessed = none) :
    calculateKeywordScore qk c none now = 0 := by
  unfold calculateKeywordScore
  rw [h, hla]
  simp [getCategoryBoostB, getRecencyBoost]

lemma scorePassB_snd_ne_nil (qk : Finset (List Char)) (analysis : Option Analysis)
    (now : ℤ) :
    ∀ (corpus : List BasicChunk),
      (∃ c ∈ corpus, 0 < calculateKeywordScore qk c analysis now) →
      (scorePassB qk analysis now corpus).2 ≠ [] := by
  intro corpus
  induction corpus with
  | nil => rintro ⟨c, hc, _⟩; simp at hc
  | cons c rest ih =>
    rintro ⟨d, hd, hds⟩
    by_cases hs : 0 < calculateKeywordScore qk c analysis now
    · simp [scorePassB, hs]
    · rcases List.mem_cons.mp hd with rfl | hmem
      · exact absurd hds hs
      · have hne := ih ⟨d, hmem, hds⟩
        simpa [scorePassB, hs] using hne

lemma scorePassB_snd_nil (qk : Finset (List Char)) (analysis : Option Analysis)
    (now : ℤ) :
    ∀ (corpus : List BasicChunk),
      (∀ c ∈ corpus, ¬ (0 < calculateKeywordScore qk c analysis now)) →
      (scorePassB qk analysis now corpus).2 = [] := by
  intro corpus
  induction corpus with
  | nil => intro _; rfl
  | cons c rest ih =>
    intro h
    have hc := h c (List.mem_cons_self c rest)
    have hr := ih (fun d hd => h d (List.mem_cons_of_mem c hd))
    simp [scorePassB, hc, hr]

lemma scorePassB_snd_tokens (qk : Finset (List Char)) (analysis : Option Analysis)
    (now : ℤ) :
    ∀ (corpus : List BasicChunk) (d : BasicChunk),
      d ∈ (scorePassB qk analysis now corpus).2 → ∃ c ∈ corpus, d.tokens = c.tokens := by
  intro corpus
  induction corpus with
  | nil => intro d hd; simp [scorePassB] at hd
  | cons c rest ih =>
    intro d hd
    by_cases hs : 0 < calculateKeywordScore qk c analysis now
    · simp only [scorePassB, hs, if_true, List.mem_cons] at hd
      rcases hd with rfl | hmem
      · exact ⟨c, List.mem_cons_self c rest, rfl⟩
      · rcases ih d hmem with ⟨c0, hc0, he⟩
        exact ⟨c0, List.mem_cons_of_mem c hc0, he⟩
    · simp only [scorePassB, hs, if_false] at hd
      rcases ih d hd with ⟨c0, hc0, he⟩
      exact ⟨c0, List.mem_cons_of_mem c hc0, he⟩

lemma sortDescBy_ne_nil {α : Type} (f : α → ℚ) (l : List α) (h : l ≠ []) :
    sortDescBy f l ≠ [] := by
  cases l with
  | nil => exact absurd rfl h
  | cons x xs =>
    rw [sortDescBy]
    cases hs : sortDescBy f xs with
    | nil => simp [insertDescBy]
    | cons y ys =>
      rw [insertDescBy]
      split_ifs <;> simp

/-- C4 counterexample: in the semantic manager a corpus whose single fragment
has no embedding is skipped entirely — there is no keyword fallback — so even
though the fragment has keyword overlap with the query, `get_relevant_context`
returns the empty list, refuting the claimed non-empty result. -/
theorem C4_counterexample :
    0 < ((extractKeywords (listToLower "webhook setup".data)) ∩
        extractKeywords (listToLower ("webhook setup guide".data ++ ' ' :: ['t']))).card ∧
    (getRelevantContext charTok 128000 10 [1] none 0
        [{ id := ['g'], content := "webhook setup guide".data, title := ['t'],
           category := "api".data, tokens := 100, embedding := none }]).1 = [] := by
  constructor
  · decide
  · decide

/-- C4 amended: ranking raises no error in either manager (both are total
functions).  In the semantic manager, fragments without a `similarityVector`
are skipped, so a corpus with no vectors yields the empty list regardless of
keyword overlap.  The claimed behavior holds of the keyword (basic) manager:
it returns a non-empty list whenever some fragment has keyword overlap with
the query (given a positive fragment limit and fragments that fit the usable
budget), and the empty list — not an error — when no fragment overlaps, no
intent analysis is supplied and no fragment was previously accessed. -/
theorem C4_amended :
    (∀ (τ : Type) (tok : Tokenizer τ) (maxTokens maxChunks : ℕ) (qe : List ℚ)
        (analysis : Option Analysis) (now : ℤ) (corpus : List Chunk),
      (∀ c ∈ corpus, c.embedding = none) →
      (getRelevantContext tok maxTokens maxChunks qe analysis now corpus).1 = []) ∧
    (∀ (maxTokens maxChunks : ℕ) (query : List Char) (analysis : Option Analysis)
        (now : ℤ) (corpus : List BasicChunk),
      0 < maxChunks →
      (∀ c ∈ corpus, c.tokens ≤ availableTokens maxTokens) →
      (∃ c ∈ corpus,
        0 < ((extractKeywords (listToLower query)) ∩ chunkKeywords c).card) →
      (getRelevantContextB maxTokens maxChunks query analysis now corpus).1 ≠ []) ∧
    (∀ (maxTokens maxChunks : ℕ) (query : List Char) (now : ℤ)
        (corpus : List BasicChunk),
      (∀ c ∈ corpus,
        ((extractKeywords (listToLower query)) ∩ chunkKeywords c).card = 0) →
      (∀ c ∈ corpus, c.last_accessed = none) →
      (getRelevantContextB maxTokens maxChunks query none now corpus).1 = []) := by
  refine ⟨?_, ?_, ?_⟩
  · intro τ tok maxTokens maxChunks qe analysis now corpus hall
    have h2 := scorePass_snd_nil qe analysis now corpus hall
    have hout : (getRelevantContext tok maxTokens maxChunks qe analysis now corpus).1
        = optimizeAux tok (availableTokens maxTokens)
          ((sortDescBy (fun c => c.relevance_score)
            (scorePass qe analysis now corpus).2).take maxChunks) 0 := rfl
    rw [hout, h2]
    simp [sortDescBy, optimizeAux]
  · intro maxTokens maxChunks query analysis now corpus hmc htok hov
    have hcand : (scorePassB (extractKeywords (listToLower query)) analysis now corpus).2 ≠ [] := by
      rcases hov with ⟨c, hc, hcard⟩
      exact scorePassB_snd_ne_nil _ analysis now corpus
        ⟨c, hc, calculateKeywordScore_pos _ c analysis now hcard⟩
    have hsorted := sortDescBy_ne_nil (fun c => c.relevance_score) _ hcand
    cases hs : sortDescBy (fun c => c.relevance_score)
        (scorePassB (extractKeywords (listToLower query)) analysis now corpus).2 with
    | nil => exact absurd hs hsorted
    | cons y ys =>
      have hy : y ∈ (scorePassB (extractKeywords (listToLower query)) analysis now corpus).2 := by
        have hmem : y ∈ sortDescBy (fun c => c.relevance_score)
            (scorePassB (extractKeywords (listToLower query)) analysis now corpus).2 := by
          rw [hs]; exact List.mem_cons_self _ _
        exact (mem_sortDescBy _ _ y).mp hmem
      rcases scorePassB_snd_tokens _ analysis now corpus y hy with ⟨c0, hc0, htokeq⟩
      have hyfit : y.tokens ≤ availableTokens maxTokens := htokeq ▸ htok c0 hc0
      have hout : (getRelevantContextB maxTokens maxChunks query analysis now corpus).1
          = optimizeAuxB (availableTokens maxTokens)
            ((sortDescBy (fun c => c.relevance_score)
              (scorePassB (extractKeywords (listToLower query)) analysis now corpus).2).take
              maxChunks) 0 := rfl
      rw [hout, hs]
      cases maxChunks with
      | zero => exact absurd hmc (lt_irrefl 0)
      | succ m =>
        rw [List.take_succ_cons]
        have h0 : 0 + y.tokens ≤ availableTokens maxTokens := by omega
        simp [optimizeAuxB, h0, hyfit]
  · intro maxTokens maxChunks query now corpus hcard hla
    have hz : ∀ c ∈ corpus,
        ¬ (0 < calculateKeywordScore (extractKeywords (listToLower query)) c none now) := by
      intro c hc
      rw [calculateKeywordScore_zero _ c now (hcard c hc) (hla c hc)]
      norm_num
    have h2 := scorePassB_snd_nil _ none now corpus hz
    have hout : (getRelevantContextB maxTokens maxChunks query none now corpus).1
        = optimizeAuxB (availableTokens maxTokens)
          ((sortDescBy (fun c => c.relevance_score)
            (scorePassB (extractKeywords (listToLower query)) none now corpus).2).take
            maxChunks) 0 := rfl
    rw [hout, h2]
    simp [sortDescBy, optimizeAuxB]

/-- Witness for C4 amended at concrete corpora: a no-embedding corpus in the
semantic manager (empty result), an overlapping corpus in the basic manager
(non-empty result), and a non-overlapping never-accessed corpus in the basic
manager with no analysis (empty result). -/
theorem C4_amended_witness :
    (getRelevantContext charTok 1000 5 [1] none 0
        [{ id := ['g'], content := "webhook setup guide".data, title := ['t'],
           category := "api".data, tokens := 100, embedding := none }]).1 = [] ∧
    (getRelevantContextB 128000 10 ("webhook setup".data) none 0
        [{ id := ['g'], content := "webhook setup guide".data, title := ['t'],
           category := "api".data, tokens := 100 }]).1 ≠ [] ∧
    (getRelevantContextB 128000 10 ("webhook setup".data) none 0
        [{ id := ['z'], content := "zzzz".data, title := ['t'],
           category := "api".data, tokens := 100 }]).1 = [] :=
  ⟨C4_amended.1 Char charTok 1000 5 [1] none 0 _ (by decide),
   C4_amended.2.1 128000 10 ("webhook setup".data) none 0 _ (by decide) (by decide)
     (by decide),
   C4_amended.2.2 128000 10 ("webhook setup".data) 0 _ (by decide) (by decide)⟩

/-- C7: in lexical mode the similarity component of
`_calculate_keyword_score` is exactly |query keywords ∩ fragment keywords| /
max(|query keywords|, 1), and keyword extraction keeps exactly the
whitespace-separated tokens that, after stripping surrounding punctuation and
lowercasing, are non-empty, longer than two characters and not stop words. -/
theorem C7_keyword_similarity :
    (∀ (text w : List Char),
      w ∈ extractKeywords text ↔
        ∃ raw ∈ splitWs text, w = listToLower (pyStrip stripSet raw) ∧
          w ≠ [] ∧ 2 < w.length ∧ ¬ (w ∈ stopWords)) ∧
    (∀ (qk : Finset (List Char)) (c : BasicChunk) (analysis : Option Analysis) (now : ℤ),
      calculateKeywordScore qk c analysis now
        = ((qk ∩ extractKeywords (listToLower (c.content ++ ' ' :: c.title))).card : ℚ)
            / ((max qk.card 1 : ℕ) : ℚ)
          + getCategoryBoostB c.category analysis
          + getRecencyBoost now c.last_accessed) := by
  constructor
  · intro text w
    simp only [extractKeywords, List.mem_toFinset, List.mem_filter, List.mem_map,
      Bool.and_eq_true, Bool.not_eq_true', decide_eq_true_eq]
    constructor
    · rintro ⟨⟨raw, hraw, rfl⟩, ⟨hne, hlen⟩, hstop⟩
      exact ⟨raw, hraw, rfl, by simpa using hne, hlen, by simpa using hstop⟩
    · rintro ⟨raw, hraw, hw, h1, h2, h3⟩
      subst hw
      exact ⟨⟨raw, hraw, rfl⟩, ⟨by simpa using h1, h2⟩, by simpa using h3⟩
  · intro qk c analysis now
    rfl

/- Helper lemmas for the fragment store (claim C9). -/

lemma ingestRows_cons (b : Chunk) (t : List Chunk) (s : List Chunk) :
    ingestRows (b :: t) s = ingestRows t (upsertChunk b s) := rfl

lemma lookup_upsertChunk (r : Chunk) (s : List Chunk) (i : List Char) :
    lookupChunk i (upsertChunk r s) = if r.id = i then some r else lookupChunk i s := by
  induction s with
  | nil => simp [upsertChunk, lookupChunk]
  | cons hd t ih =>
    by_cases hh : hd.id = r.id
    · rw [upsertChunk, if_pos hh]
      by_cases hri : r.id = i
      · simp [lookupChunk, hri]
      · have hhi : ¬ (hd.id = i) := by rw [hh]; exact hri
        simp [lookupChunk, hri, hhi]
    · rw [upsertChunk, if_neg hh]
      by_cases hhi : hd.id = i
      · have hri : ¬ (r.id = i) := fun he => hh (by rw [hhi, he])
        simp [lookupChunk, hhi, hri]
      · simp [lookupChunk, hhi, ih]

lemma upsertChunk_eq_self (r : Chunk) (s : List Chunk)
    (h : lookupChunk r.id s = some r) : upsertChunk r s = s := by
  induction s with
  | nil => simp [lookupChunk] at h
  | cons hd t ih =>
    by_cases hh : hd.id = r.id
    · have he : hd = r := by
        rw [lookupChunk, if_pos hh] at h
        exact Option.some_inj.mp h
      rw [upsertChunk, if_pos hh, he]
    · rw [lookupChunk, if_neg hh] at h
      rw [upsertChunk, if_neg hh, ih h]

lemma lookup_ingestRows_of_absent (t : List Chunk) (s : List Chunk) (i : List Char)
    (h : ∀ r ∈ t, ¬ (r.id = i)) :
    lookupChunk i (ingestRows t s) = lookupChunk i s := by
  induction t generalizing s with
  | nil => rfl
  | cons b t' ih =>
    rw [ingestRows_cons]
    rw [ih (upsertChunk b s) (fun r hr => h r (List.mem_cons_of_mem b hr))]
    rw [lookup_upsertChunk, if_neg (h b (List.mem_cons_self b t'))]

lemma lookup_ingestRows (rows : List Chunk) (s : List Chunk)
    (hinj : ∀ r ∈ rows, ∀ r' ∈ rows, r.id = r'.id → r = r') :
    ∀ r ∈ rows, lookupChunk r.id (ingestRows rows s) = some r := by
  induction rows generalizing s with
  | nil => intro r hr; simp at hr
  | cons a t ih =>
    intro r hr
    rw [ingestRows_cons]
    rcases List.mem_cons.mp hr with rfl | hmem
    · by_cases hat : r ∈ t
      · exact ih (upsertChunk r s)
          (fun x hx y hy => hinj x (List.mem_cons_of_mem r hx) y (List.mem_cons_of_mem r hy))
          r hat
      · have habs : ∀ x ∈ t, ¬ (x.id = r.id) := by
          intro x hx he
          exact hat ((hinj x (List.mem_cons_of_mem r hx) r (List.mem_cons_self r t) he) ▸ hx)
        rw [lookup_ingestRows_of_absent t _ _ habs, lookup_upsertChunk, if_pos rfl]
    · exact ih (upsertChunk a s)
        (fun x hx y hy => hinj x (List.mem_cons_of_mem a hx) y (List.mem_cons_of_mem a hy))
        r hmem

lemma ingestRows_noop (rows : List Chunk) (s : List Chunk)
    (h : ∀ r ∈ rows, lookupChunk r.id s = some r) : ingestRows rows s = s := by
  induction rows with
  | nil => rfl
  | cons a t ih =>
    rw [ingestRows_cons, upsertChunk_eq_self a s (h a (List.mem_cons_self a t))]
    exact ih (fun r hr => h r (List.mem_cons_of_mem a hr))

lemma mem_map_id_upsertChunk (r : Chunk) (s : List Chunk) (i : List Char)
    (h : i ∈ (upsertChunk r s).map (fun c => c.id)) :
    i = r.id ∨ i ∈ s.map (fun c => c.id) := by
  induction s with
  | nil => simpa [upsertChunk] using h
  | cons hd t ih =>
    by_cases hh : hd.id = r.id
    · rw [upsertChunk, if_pos hh] at h
      simp only [List.map_cons, List.mem_cons] at h ⊢
      tauto
    · rw [upsertChunk, if_neg hh] at h
      simp only [List.map_cons, List.mem_cons] at h ⊢
      rcases h with h1 | h2
      · exact Or.inr (Or.inl h1)
      · rcases ih h2 with h3 | h4
        · exact Or.inl h3
        · exact Or.inr (Or.inr h4)

lemma nodup_upsertChunk (r : Chunk) (s : List Chunk)
    (h : (s.map (fun c => c.id)).Nodup) :
    ((upsertChunk r s).map (fun c => c.id)).Nodup := by
  induction s with
  | nil => simp [upsertChunk]
  | cons hd t ih =>
    rw [List.map_cons, List.nodup_cons] at h
    rcases h with ⟨hnm, hnd⟩
    by_cases hh : hd.id = r.id
    · rw [upsertChunk, if_pos hh, List.map_cons, List.nodup_cons]
      exact ⟨by rw [← hh]; exact hnm, hnd⟩
    · rw [upsertChunk, if_neg hh, List.map_cons, List.nodup_cons]
      refine ⟨?_, ih hnd⟩
      intro hmem
      rcases mem_map_id_upsertChunk r t hd.id hmem with he | hmem2
      · exact hh he
      · exact hnm hmem2

lemma nodup_ingestRows (rows : List Chunk) (s : List Chunk)
    (h : (s.map (fun c => c.id)).Nodup) :
    ((ingestRows rows s).map (fun c => c.id)).Nodup := by
  induction rows generalizing s with
  | nil => exact h
  | cons a t ih =>
    rw [ingestRows_cons]
    exact ih _ (nodup_upsertChunk a s h)

/-- C9: the fragment id is a deterministic function of
(content, title, category) — in the model, `mkChunk` applies the hash to
`content ++ title ++ category`, so identical pieces always yield identical
ids and rows — and re-ingesting the same piece list is a no-op on the store:
the second `INSERT OR REPLACE` pass leaves the store exactly as the first
left it; the store keeps pairwise-distinct ids (no duplicate rows), and
after ingestion every row is found at its id.  The injectivity hypothesis
says only that the (stable) hash does not collide within this one piece
list. -/
theorem C9_idempotent_ingestion (hash : List Char → List Char)
    (embed : List Char → List ℚ) (countTokens : List Char → ℕ)
    (category : List Char) (pieces : List (List Char × List Char))
    (store mem mem' : List Chunk)
    (hinj : ∀ r ∈ pieces.map (fun p => mkChunk hash embed countTokens category p.1 p.2),
      ∀ r' ∈ pieces.map (fun p => mkChunk hash embed countTokens category p.1 p.2),
        r.id = r'.id → r = r')
    (hnd : (store.map (fun c => c.id)).Nodup) :
    (processFileChunks hash embed countTokens category pieces
        (processFileChunks hash embed countTokens category pieces store mem).1 mem').1
      = (processFileChunks hash embed countTokens category pieces store mem).1 ∧
    (((processFileChunks hash embed countTokens category pieces store mem).1.map
        (fun c => c.id)).Nodup) ∧
    (∀ r ∈ pieces.map (fun p => mkChunk hash embed countTokens category p.1 p.2),
      lookupChunk r.id
          (processFileChunks hash embed countTokens category pieces store mem).1
        = some r) := by
  have hfst : ∀ (st me : List Chunk),
      (processFileChunks hash embed countTokens category pieces st me).1
        = ingestRows
            (pieces.map (fun p => mkChunk hash embed countTokens category p.1 p.2)) st :=
    fun _ _ => rfl
  refine ⟨?_, ?_, ?_⟩
  · simp only [hfst]
    exact ingestRows_noop _ _ (lookup_ingestRows _ store hinj)
  · simp only [hfst]
    exact nodup_ingestRows _ _ hnd
  · simp only [hfst]
    exact lookup_ingestRows _ store hinj

/-- Sample piece list for the ingestion witness. -/
def c9pieces : List (List Char × List Char) :=
  [("ab".data, "t1".data), ("cd".data, "t2".data)]

/-- Witness for C9: ingesting two concrete pieces into the empty store twice
leaves the store unchanged. -/
theorem C9_idempotent_ingestion_witness :
    (∀ r ∈ c9pieces.map
        (fun p => mkChunk (fun s => s) (fun _ => []) (fun s => s.length) ("api".data) p.1 p.2),
      ∀ r' ∈ c9pieces.map
        (fun p => mkChunk (fun s => s) (fun _ => []) (fun s => s.length) ("api".data) p.1 p.2),
        r.id = r'.id → r = r') ∧
    (processFileChunks (fun s => s) (fun _ => []) (fun s => s.length) ("api".data) c9pieces
        (processFileChunks (fun s => s) (fun _ => []) (fun s => s.length) ("api".data)
          c9pieces [] []).1 []).1
      = (processFileChunks (fun s => s) (fun _ => []) (fun s => s.length) ("api".data)
          c9pieces [] []).1 :=
  ⟨by decide,
   (C9_idempotent_ingestion (fun s => s) (fun _ => []) (fun s => s.length) ("api".data)
     c9pieces [] [] [] (by decide) (by decide)).1⟩

/- Helper lemmas for the mutation frame (claim C10). -/

lemma scorePass_fst (qe : List ℚ) (analysis : Option Analysis) (now : ℤ) :
    ∀ (corpus : List Chunk),
      (scorePass qe analysis now corpus).1
        = corpus.map (fun c =>
            match c.embedding with
            | none => c
            | some e => { c with relevance_score := scoreChunk qe analysis now c e,
                                 last_accessed := some now }) := by
  intro corpus
  induction corpus with
  | nil => rfl
  | cons c rest ih =>
    cases hc : c.embedding with
    | none => simp [scorePass, hc, ih]
    | some e => simp [scorePass, hc, ih]

lemma scorePassB_fst (qk : Finset (List Char)) (analysis : Option Analysis) (now : ℤ) :
    ∀ (corpus : List BasicChunk),
      (scorePassB qk analysis now corpus).1
        = corpus.map (fun c =>
            if 0 < calculateKeywordScore qk c analysis now
            then { c with relevance_score := calculateKeywordScore qk c analysis now,
                          last_accessed := some now }
            else c) := by
  intro corpus
  induction corpus with
  | nil => rfl
  | cons c rest ih =>
    by_cases hs : 0 < calculateKeywordScore qk c analysis now
    · simp [scorePassB, hs, ih]
    · simp [scorePassB, hs, ih]

/-- C10: ranking rewrites exactly the `relevance_score` and `last_accessed`
fields of every considered fragment — in the semantic manager every fragment
with an embedding (chunks without one are skipped untouched), in the basic
manager every fragment with positive score — whether or not it makes the
final selection; `last_accessed` becomes the time of the call, the score
becomes the freshly computed one, and `id`, `content`, `title`, `category`,
`tokens` and `embedding` are unchanged on every fragment. -/
theorem C10_mutation_frame :
    (∀ (τ : Type) (tok : Tokenizer τ) (maxTokens maxChunks : ℕ) (qe : List ℚ)
        (analysis : Option Analysis) (now : ℤ) (corpus : List Chunk),
      (getRelevantContext tok maxTokens maxChunks qe analysis now corpus).2
        = corpus.map (fun c =>
            match c.embedding with
            | none => c
            | some e => { c with relevance_score := scoreChunk qe analysis now c e,
                                 last_accessed := some now })) ∧
    (∀ (maxTokens maxChunks : ℕ) (query : List Char) (analysis : Option Analysis)
        (now : ℤ) (corpus : List BasicChunk),
      (getRelevantContextB maxTokens maxChunks query analysis now corpus).2
        = corpus.map (fun c =>
            if 0 < calculateKeywordScore (extractKeywords (listToLower query)) c analysis now
            then { c with
                    relevance_score :=
                      calculateKeywordScore (extractKeywords (listToLower query)) c analysis now,
                    last_accessed := some now }
            else c)) ∧
    (∀ (qe : List ℚ) (analysis : Option Analysis) (now : ℤ) (c : Chunk) (e : List ℚ),
      ({ c with relevance_score := scoreChunk qe analysis now c e,
                last_accessed := some now } : Chunk).id = c.id ∧
      ({ c with relevance_score := scoreChunk qe analysis now c e,
                last_accessed := some now } : Chunk).content = c.content ∧
      ({ c with relevance_score := scoreChunk qe analysis now c e,
                last_accessed := some now } : Chunk).title = c.title ∧
      ({ c with relevance_score := scoreChunk qe analysis now c e,
                last_accessed := some now } : Chunk).category = c.category ∧
      ({ c with relevance_score := scoreChunk qe analysis now c e,
                last_accessed := some now } : Chunk).tokens = c.tokens ∧
      ({ c with relevance_score := scoreChunk qe analysis now c e,
                last_accessed := some now } : Chunk).embedding = c.embedding) := by
  refine ⟨?_, ?_, ?_⟩
  · intro τ tok maxTokens maxChunks qe analysis now corpus
    exact scorePass_fst qe analysis now corpus
  · intro maxTokens maxChunks query analysis now corpus
    exact scorePassB_fst (extractKeywords (listToLower query)) analysis now corpus
  · intro qe analysis now c e
    exact ⟨rfl, rfl, rfl, rfl, rfl, rfl⟩
